import Mathlib

/-!
Verification of the DeepPhonemizer inference core (`dp/model.py`).

The Python source operates on PyTorch tensors of floats.  We embed it
shallowly over lists of rationals:

* a logit row (the last tensor axis, length V) is a `List ℚ`;
* a per-sample frame sequence is a `List (List ℚ)` and a batch is a
  `List (List (List ℚ))`;
* the transcendental per-row softmax (`tensor.softmax(-1)`) is not a
  rational function, so it is carried as an explicit function parameter
  `smax : List ℚ → List ℚ`; the facts a given claim needs about the real
  softmax (it preserves the per-row argmax, its outputs lie in `[0, 1]`)
  are stated as hypotheses on `smax`;
* the learned networks (embedding, LSTM stack, transformer encoder and
  decoder, final projection) are opaque learned functions and are carried
  as explicit function parameters as well; every piece of code around them
  (masking, argmax, run collapsing, padding, the autoregressive loop, the
  confidence bookkeeping, checkpoint dispatch) is translated directly.
-/

/-- `torch.max(logits, dim=-1)` on one row: the maximal value together with
the index of its first occurrence. -/
def maxWithIdx (l : List ℚ) : ℚ × Nat :=
  l.enum.foldl (fun b p => if b.1 < p.2 then (p.2, p.1) else b) (l.headD 0, 0)

/-- `torch.unique_consecutive(_, return_counts=True)`: the list of run
values of a sequence together with the length of each run. -/
def uniqueConsecutiveCounts : List Nat → List (Nat × Nat)
  | [] => []
  | x :: xs =>
    match uniqueConsecutiveCounts xs with
    | [] => [(x, 1)]
    | (y, c) :: rest => if x = y then (x, c + 1) :: rest else (x, 1) :: (y, c) :: rest

/-- `tensor.max()` over a flat list of values (`0` for an empty list; the
source only applies it to nonempty run slices). -/
def listMax : List ℚ → ℚ
  | [] => 0
  | x :: xs => xs.foldl max x

/-- The confidence loop of `get_dedup_tokens`: `ind = 0; for c in counts:
out_probs_i.append(max_logits[ind:ind + c].max()); ind = ind + c`, with the
running index rendered by take/drop. -/
def sliceMaxes (ps : List ℚ) : List Nat → List ℚ
  | [] => []
  | c :: cs => listMax (ps.take c) :: sliceMaxes (ps.drop c) cs

/-- The per-sample body of `get_dedup_tokens` (model.py lines 20-34): take
the per-frame max probability and argmax index of the softmaxed logits,
drop the frames whose argmax is 0, collapse consecutive equal indices and
pair every run with the maximal probability seen inside it. -/
def dedupSample (smax : List ℚ → List ℚ) (logits : List (List ℚ)) :
    List Nat × List ℚ :=
  let pairs := logits.map (fun r => maxWithIdx (smax r))
  let kept := pairs.filter (fun p => decide (p.2 ≠ 0))
  let runs := uniqueConsecutiveCounts (kept.map Prod.snd)
  (runs.map Prod.fst, sliceMaxes (kept.map Prod.fst) (runs.map Prod.snd))

/-- Largest row length of a batch, the padded width used by
`pad_sequence`. -/
def batchMaxLen (b : List (List α)) : Nat :=
  (b.map List.length).foldl max 0

/-- `pad_sequence(_, batch_first=True, padding_value=pad)`: right-pad every
row to the longest row of the batch. -/
def padSequence (pad : α) (b : List (List α)) : List (List α) :=
  b.map (fun l => l ++ List.replicate (batchMaxLen b - l.length) pad)

/-- `get_dedup_tokens` (model.py lines 12-39): per-sample dedup collapse
followed by rectangular padding of both outputs with 0. -/
def getDedupTokens (smax : List ℚ → List ℚ) (b : List (List (List ℚ))) :
    List (List Nat) × List (List ℚ) :=
  (padSequence 0 (b.map (fun s => (dedupSample smax s).1)),
   padSequence 0 (b.map (fun s => (dedupSample smax s).2)))

/-- Specification-side grouping: split a list of (probability, symbol)
frames into its maximal runs of consecutive frames carrying one identical
symbol. -/
def maxRuns : List (ℚ × Nat) → List (List (ℚ × Nat))
  | [] => []
  | p :: ps =>
    match maxRuns ps with
    | [] => [[p]]
    | [] :: tail => [p] :: tail
    | (q :: run) :: tail =>
      if p.2 = q.2 then (p :: q :: run) :: tail else [p] :: (q :: run) :: tail

/-- Specification-side collapsed output, following the spec text: per
frame take the argmax symbol of the source logit row and the maximal
softmax probability; frames whose argmax is 0 contribute nothing; one
(symbol, confidence) entry per maximal run of an identical remaining
symbol, in the original left-to-right order, the confidence being the
maximum per-frame softmax probability observed within the run. -/
def collapsedRunsSpec (smax : List ℚ → List ℚ) (logits : List (List ℚ)) :
    List Nat × List ℚ :=
  let pairs := logits.map (fun r => ((maxWithIdx (smax r)).1, (maxWithIdx r).2))
  let kept := pairs.filter (fun p => decide (p.2 ≠ 0))
  let runs := maxRuns kept
  (runs.map (fun c => (c.headD (0, 0)).2),
   runs.map (fun c => listMax (c.map Prod.fst)))

theorem maxRuns_ne_nil (l : List (ℚ × Nat)) : [] ∉ maxRuns l := by
  induction l with
  | nil => simp [maxRuns]
  | cons p ps ih =>
    simp only [maxRuns]
    cases h : maxRuns ps with
    | nil => simp
    | cons c tail =>
      cases c with
      | nil => exact absurd (h ▸ List.mem_cons_self [] tail) ih
      | cons q run =>
        have htail : [] ∉ tail := fun hm => ih (h ▸ List.mem_cons_of_mem _ hm)
        by_cases hpq : p.2 = q.2 <;>
          simp [hpq, List.mem_cons, htail]

theorem maxRuns_join (l : List (ℚ × Nat)) : (maxRuns l).flatten = l := by
  induction l with
  | nil => simp [maxRuns]
  | cons p ps ih =>
    simp only [maxRuns]
    cases h : maxRuns ps with
    | nil =>
      have : ps = [] := by simpa [h] using ih
      simp [this]
    | cons c tail =>
      cases c with
      | nil => exact absurd (h ▸ List.mem_cons_self [] tail) (maxRuns_ne_nil ps)
      | cons q run =>
        have hps : (q :: run) ++ tail.flatten = ps := by simpa [h] using ih
        by_cases hpq : p.2 = q.2 <;> simp [hpq, List.flatten_cons, hps]

theorem ucc_eq_maxRuns (l : List (ℚ × Nat)) :
    uniqueConsecutiveCounts (l.map Prod.snd)
      = (maxRuns l).map (fun c => ((c.headD (0, 0)).2, c.length)) := by
  induction l with
  | nil => simp [uniqueConsecutiveCounts, maxRuns]
  | cons p ps ih =>
    simp only [List.map_cons, maxRuns, uniqueConsecutiveCounts]
    cases h : maxRuns ps with
    | nil =>
      rw [h] at ih
      simp only [List.map_nil] at ih
      simp [ih]
    | cons c tail =>
      cases c with
      | nil => exact absurd (h ▸ List.mem_cons_self [] tail) (maxRuns_ne_nil ps)
      | cons q run =>
        rw [h] at ih
        simp only [List.map_cons, List.headD_cons] at ih
        rw [ih]
        by_cases hpq : p.2 = q.2 <;>
          simp [hpq, List.length_cons]

theorem sliceMaxes_chunks (chunks : List (List (ℚ × Nat))) :
    sliceMaxes (chunks.flatten.map Prod.fst) (chunks.map List.length)
      = chunks.map (fun c => listMax (c.map Prod.fst)) := by
  induction chunks with
  | nil => rfl
  | cons c cs ih =>
    simp only [List.flatten_cons, List.map_append, List.map_cons, sliceMaxes]
    have hlen : c.length = (c.map Prod.fst).length := (List.length_map _ _).symm
    rw [hlen, List.take_left, List.drop_left, ih]

theorem dedupSample_eq_spec (smax : List ℚ → List ℚ) (s : List (List ℚ))
    (hpres : ∀ r ∈ s, (maxWithIdx (smax r)).2 = (maxWithIdx r).2) :
    dedupSample smax s = collapsedRunsSpec smax s := by
  unfold dedupSample collapsedRunsSpec
  have hpairs : s.map (fun r => maxWithIdx (smax r))
      = s.map (fun r => ((maxWithIdx (smax r)).1, (maxWithIdx r).2)) := by
    apply List.map_congr_left
    intro r hr
    exact Prod.ext rfl (hpres r hr)
  rw [hpairs]
  dsimp only
  set kept := (s.map (fun r => ((maxWithIdx (smax r)).1, (maxWithIdx r).2))).filter
    (fun p => decide (p.2 ≠ 0)) with hkept
  have h1 := ucc_eq_maxRuns kept
  have h2 : (uniqueConsecutiveCounts (kept.map Prod.snd)).map Prod.snd
      = (maxRuns kept).map List.length := by
    rw [h1, List.map_map]; rfl
  refine Prod.ext ?_ ?_
  · rw [h1, List.map_map]
    rfl
  · calc sliceMaxes (kept.map Prod.fst)
          ((uniqueConsecutiveCounts (kept.map Prod.snd)).map Prod.snd)
        = sliceMaxes ((maxRuns kept).flatten.map Prod.fst)
            ((maxRuns kept).map List.length) := by rw [h2, maxRuns_join]
      _ = (maxRuns kept).map (fun c => listMax (c.map Prod.fst)) :=
          sliceMaxes_chunks _

/-- Claim C1: `get_dedup_tokens` produces, for each sample, one (token,
confidence) entry per maximal run of identical non-zero argmax symbols of
the frame sequence (frames whose argmax is 0 are dropped before runs are
formed), in original left-to-right order, each run's confidence being the
maximum per-frame softmax probability observed within the run; the batch
outputs are these per-sample sequences right-padded with 0.  The softmax
is abstract; the hypothesis records that it preserves each row's argmax. -/
theorem dedup_tokens_spec (smax : List ℚ → List ℚ) (batch : List (List (List ℚ)))
    (hpres : ∀ s ∈ batch, ∀ r ∈ s, (maxWithIdx (smax r)).2 = (maxWithIdx r).2) :
    getDedupTokens smax batch
      = (padSequence 0 (batch.map (fun s => (collapsedRunsSpec smax s).1)),
         padSequence 0 (batch.map (fun s => (collapsedRunsSpec smax s).2))) := by
  unfold getDedupTokens
  have h1 : batch.map (fun s => (dedupSample smax s).1)
      = batch.map (fun s => (collapsedRunsSpec smax s).1) :=
    List.map_congr_left fun s hs => by rw [dedupSample_eq_spec smax s (hpres s hs)]
  have h2 : batch.map (fun s => (dedupSample smax s).2)
      = batch.map (fun s => (collapsedRunsSpec smax s).2) :=
    List.map_congr_left fun s hs => by rw [dedupSample_eq_spec smax s (hpres s hs)]
  rw [h1, h2]

/-- A concrete logit batch (already softmax-normalized); its per-frame
argmax sequence is `[0, 1, 1, 0, 2, 2]`, the example used in the spec. -/
def exampleLogits : List (List (List ℚ)) :=
  [[[mkRat 1 2, mkRat 1 4, mkRat 1 4], [mkRat 1 5, mkRat 3 5, mkRat 1 5],
    [mkRat 1 4, mkRat 1 2, mkRat 1 4], [mkRat 2 3, mkRat 1 6, mkRat 1 6],
    [mkRat 1 6, mkRat 1 6, mkRat 2 3], [mkRat 1 10, mkRat 1 10, mkRat 4 5]]]

theorem dedup_tokens_spec_witness :
    getDedupTokens id exampleLogits
      = (padSequence 0 (exampleLogits.map (fun s => (collapsedRunsSpec id s).1)),
         padSequence 0 (exampleLogits.map (fun s => (collapsedRunsSpec id s).2))) :=
  dedup_tokens_spec id exampleLogits (fun _ _ _ _ => rfl)

theorem ucc_fst_mem (l : List Nat) (pr : Nat × Nat)
    (h : pr ∈ uniqueConsecutiveCounts l) : pr.1 ∈ l := by
  induction l generalizing pr with
  | nil => simp [uniqueConsecutiveCounts] at h
  | cons x xs ih =>
    simp only [uniqueConsecutiveCounts] at h
    cases hx : uniqueConsecutiveCounts xs with
    | nil =>
      rw [hx] at h
      simp only [List.mem_singleton] at h
      subst h
      exact List.mem_cons_self _ _
    | cons yc rest =>
      obtain ⟨y, c⟩ := yc
      rw [hx] at h
      simp only at h
      by_cases hxy : x = y
      · rw [if_pos hxy] at h
        rcases List.mem_cons.mp h with h1 | h1
        · subst h1; exact List.mem_cons_self _ _
        · exact List.mem_cons_of_mem _ (ih pr (hx ▸ List.mem_cons_of_mem _ h1))
      · rw [if_neg hxy] at h
        rcases List.mem_cons.mp h with h1 | h1
        · subst h1; exact List.mem_cons_self _ _
        · exact List.mem_cons_of_mem _ (ih pr (hx ▸ h1))

theorem ucc_fst_chain (l : List Nat) :
    List.Chain' (fun a b => a ≠ b) ((uniqueConsecutiveCounts l).map Prod.fst) := by
  induction l with
  | nil => simp [uniqueConsecutiveCounts]
  | cons x xs ih =>
    simp only [uniqueConsecutiveCounts]
    cases hx : uniqueConsecutiveCounts xs with
    | nil => simp
    | cons yc rest =>
      obtain ⟨y, c⟩ := yc
      rw [hx] at ih
      simp only
      by_cases hxy : x = y
      · rw [if_pos hxy]
        simp only [List.map_cons] at ih ⊢
        rw [hxy]
        exact ih
      · rw [if_neg hxy]
        simp only [List.map_cons] at ih ⊢
        exact List.Chain'.cons hxy ih

theorem getD_map_lt (f : α → β) (l : List α) (i : Nat) (d : α) (d2 : β)
    (h : i < l.length) : (l.map f).getD i d2 = f (l.getD i d) := by
  rw [List.getD_eq_getElem?_getD, List.getD_eq_getElem?_getD, List.getElem?_map,
      List.getElem?_eq_getElem h]
  simp

theorem padSequence_getD (pad : α) (b : List (List α)) (i : Nat)
    (h : i < b.length) :
    (padSequence pad b).getD i []
      = (b.getD i []) ++ List.replicate (batchMaxLen b - (b.getD i []).length) pad :=
  getD_map_lt _ b i [] [] h

/-- Claim C10: in the token output of `get_dedup_tokens`, each row is the
sample's collapsed token sequence followed by the padded zero tail, every
token of the collapsed sequence is non-zero, and no two consecutive
collapsed tokens are equal. -/
theorem dedup_tokens_invariants (smax : List ℚ → List ℚ)
    (batch : List (List (List ℚ))) (i : Nat) (hi : i < batch.length) :
    (getDedupTokens smax batch).1.getD i []
      = (dedupSample smax (batch.getD i [])).1
        ++ List.replicate
            (batchMaxLen (batch.map (fun s => (dedupSample smax s).1))
              - (dedupSample smax (batch.getD i [])).1.length) 0
    ∧ (∀ t ∈ (dedupSample smax (batch.getD i [])).1, t ≠ 0)
    ∧ List.Chain' (fun a b => a ≠ b) (dedupSample smax (batch.getD i [])).1 := by
  refine ⟨?_, ?_, ?_⟩
  · show (padSequence 0 (batch.map (fun s => (dedupSample smax s).1))).getD i [] = _
    rw [padSequence_getD 0 _ i (by simpa using hi),
        getD_map_lt (fun s => (dedupSample smax s).1) batch i [] [] hi]
  · intro t ht
    simp only [dedupSample] at ht
    rcases List.mem_map.mp ht with ⟨pr, hpr, rfl⟩
    have hmem := ucc_fst_mem _ pr hpr
    rcases List.mem_map.mp hmem with ⟨p, hp, hfst⟩
    have hne := (List.mem_filter.mp hp).2
    rw [decide_eq_true_eq] at hne
    rw [← hfst]
    exact hne
  · simp only [dedupSample]
    exact ucc_fst_chain _

theorem dedup_tokens_invariants_witness :
    (getDedupTokens id exampleLogits).1.getD 0 []
      = (dedupSample id (exampleLogits.getD 0 [])).1
        ++ List.replicate
            (batchMaxLen (exampleLogits.map (fun s => (dedupSample id s).1))
              - (dedupSample id (exampleLogits.getD 0 [])).1.length) 0
    ∧ (∀ t ∈ (dedupSample id (exampleLogits.getD 0 [])).1, t ≠ 0)
    ∧ List.Chain' (fun a b => a ≠ b) (dedupSample id (exampleLogits.getD 0 [])).1 :=
  dedup_tokens_invariants id exampleLogits 0 (by decide)

/-- Claim C8: a sample whose every frame has argmax 0 collapses to the
empty sequence, and after rectangular padding its token row and its
confidence row consist of zeros only. -/
theorem dedup_all_zero_argmax (smax : List ℚ → List ℚ)
    (batch : List (List (List ℚ))) (i : Nat) (hi : i < batch.length)
    (hzero : ∀ r ∈ batch.getD i [], (maxWithIdx (smax r)).2 = 0) :
    dedupSample smax (batch.getD i []) = ([], [])
    ∧ (∀ t ∈ (getDedupTokens smax batch).1.getD i [], t = 0)
    ∧ (∀ q ∈ (getDedupTokens smax batch).2.getD i [], q = (0 : ℚ)) := by
  have hkept : ((batch.getD i []).map (fun r => maxWithIdx (smax r))).filter
      (fun p => decide (p.2 ≠ 0)) = [] := by
    rw [List.filter_eq_nil_iff]
    intro p hp
    rcases List.mem_map.mp hp with ⟨r, hr, rfl⟩
    simp [hzero r hr]
  have hded : dedupSample smax (batch.getD i []) = ([], []) := by
    simp only [dedupSample]
    rw [hkept]
    rfl
  refine ⟨hded, ?_, ?_⟩
  · intro t ht
    rw [show (getDedupTokens smax batch).1
          = padSequence 0 (batch.map (fun s => (dedupSample smax s).1)) from rfl,
        padSequence_getD 0 _ i (by simpa using hi),
        getD_map_lt (fun s => (dedupSample smax s).1) batch i [] [] hi, hded] at ht
    simp only [List.nil_append] at ht
    exact List.eq_of_mem_replicate ht
  · intro q hq
    rw [show (getDedupTokens smax batch).2
          = padSequence 0 (batch.map (fun s => (dedupSample smax s).2)) from rfl,
        padSequence_getD 0 _ i (by simpa using hi),
        getD_map_lt (fun s => (dedupSample smax s).2) batch i [] [] hi, hded] at hq
    simp only [List.nil_append] at hq
    exact List.eq_of_mem_replicate hq

/-- A batch whose first sample has argmax 0 at every frame. -/
def allZeroBatch : List (List (List ℚ)) :=
  [[[mkRat 1 2, mkRat 1 4, mkRat 1 4], [mkRat 2 3, mkRat 1 6, mkRat 1 6]],
   [[mkRat 1 5, mkRat 3 5, mkRat 1 5]]]

theorem dedup_all_zero_argmax_witness :
    dedupSample id (allZeroBatch.getD 0 []) = ([], [])
    ∧ (∀ t ∈ (getDedupTokens id allZeroBatch).1.getD 0 [], t = 0)
    ∧ (∀ q ∈ (getDedupTokens id allZeroBatch).2.getD 0 [], q = (0 : ℚ)) :=
  dedup_all_zero_argmax id allZeroBatch 0 (by decide) (by decide)

/-- Loop state of `AutoregressiveTransformer.generate` (model.py lines
304-321): the time-major decoder history `out_indices` (each row is one
time position holding one token id per batch element) and the collected
per-step last-position distributions `out_logits`. -/
structure GenState where
  hist : List (List Nat)
  logits : List (List (List ℚ))
deriving DecidableEq

/-- One iteration of the decoding loop (model.py lines 307-318): the
decoder stack (embedding, positional encoding, transformer decoder with
the causal mask of the current length, projection and softmax, lines
307-314) is the abstract function `net`, which maps the current history to
the distribution at the newest time position for each batch element; the
new token row is the per-element argmax of those distributions, appended
to the history, and the distributions are recorded. -/
def decodeStep (net : List (List Nat) → List (List ℚ)) (st : GenState) : GenState :=
  let dist := net st.hist
  ⟨st.hist ++ [dist.map (fun d => (maxWithIdx d).2)], st.logits ++ [dist]⟩

/-- One entry of `stop_rows` (model.py line 319): whether batch column `n`
of the history contains the end index anywhere. -/
def stopRow (endIdx : Nat) (hist : List (List Nat)) (n : Nat) : Bool :=
  hist.any (fun row => row.getD n 0 == endIdx)

/-- The termination test `torch.sum(stop_rows) == batch_size` (model.py
line 320): every one of the `batchSize` columns contains the end index. -/
def allStopped (endIdx batchSize : Nat) (hist : List (List Nat)) : Bool :=
  (List.range batchSize).countP (stopRow endIdx hist) == batchSize

/-- The decoding loop `for i in range(max_len)` with its early `break`
(model.py lines 306-321). -/
def genLoop (net : List (List Nat) → List (List ℚ)) (endIdx batchSize : Nat) :
    Nat → GenState → GenState
  | 0, st => st
  | m + 1, st =>
    let st2 := decodeStep net st
    if allStopped endIdx batchSize st2.hist then st2
    else genLoop net endIdx batchSize m st2

/-- The same loop without the stop test, used to name the trajectory. -/
def iterDecode (net : List (List Nat) → List (List ℚ)) :
    Nat → GenState → GenState
  | 0, st => st
  | m + 1, st => iterDecode net m (decodeStep net st)

/-- `out_probs` construction for one sample (model.py lines 326-329):
a row of ones of length `T`, then `out_probs[i, j+1] = out_logits[i, j].max()`
for `j` in `range(0, T-1)`. -/
def fillProbs (T : Nat) (lr : List (List ℚ)) : List ℚ :=
  (List.range (T - 1)).foldl (fun acc j => acc.set (j + 1) (listMax (lr.getD j [])))
    (List.replicate T 1)

/-- `AutoregressiveTransformer.generate` (model.py lines 289-330).  The
encoder pass (lines 300-303) is absorbed into `net`, which closes over the
encoded memory; `smax` is the second softmax applied to the stacked
distributions at line 325.  The history starts as the supplied start row
(`start_index.unsqueeze(0)`), the loop runs up to `maxLen` with the
batch-wide stop test, then both outputs are transposed to batch-major and
the confidence rows are built by `fillProbs`. -/
def arGenerate (net : List (List Nat) → List (List ℚ)) (smax : List ℚ → List ℚ)
    (endIdx : Nat) (startRow : List Nat) (maxLen : Nat) :
    List (List Nat) × List (List ℚ) :=
  let B := startRow.length
  let st := genLoop net endIdx B maxLen ⟨[startRow], []⟩
  let outIndices := (List.range B).map (fun n => st.hist.map (fun row => row.getD n 0))
  let outLogits := (List.range B).map
    (fun n => st.logits.map (fun step => smax (step.getD n [])))
  (outIndices, outLogits.map (fun lr => fillProbs st.hist.length lr))

theorem iterDecode_succ_out (net : List (List Nat) → List (List ℚ)) :
    ∀ (k : Nat) (st : GenState),
      iterDecode net (k + 1) st = decodeStep net (iterDecode net k st) := by
  intro k
  induction k with
  | zero => intro st; rfl
  | succ m ih =>
    intro st
    show iterDecode net (m + 1) (decodeStep net st) = _
    rw [ih (decodeStep net st)]
    rfl

theorem iterDecode_lengths (net : List (List Nat) → List (List ℚ)) :
    ∀ (k : Nat) (st : GenState),
      (iterDecode net k st).hist.length = st.hist.length + k
      ∧ (iterDecode net k st).logits.length = st.logits.length + k := by
  intro k
  induction k with
  | zero => intro st; exact ⟨rfl, rfl⟩
  | succ m ih =>
    intro st
    show (iterDecode net m (decodeStep net st)).hist.length = _
      ∧ (iterDecode net m (decodeStep net st)).logits.length = _
    rcases ih (decodeStep net st) with ⟨h1, h2⟩
    rw [h1, h2]
    simp only [decodeStep, List.length_append, List.length_cons, List.length_nil]
    omega

theorem allStopped_mono (net : List (List Nat) → List (List ℚ))
    (endIdx batchSize : Nat) (st : GenState)
    (h : allStopped endIdx batchSize st.hist = true) :
    allStopped endIdx batchSize (decodeStep net st).hist = true := by
  simp only [allStopped, beq_iff_eq] at h ⊢
  have h1 : List.countP (stopRow endIdx st.hist) (List.range batchSize)
      = (List.range batchSize).length := by rw [List.length_range]; exact h
  have h2 := List.countP_eq_length.mp h1
  have h3 : List.countP (stopRow endIdx (decodeStep net st).hist)
      (List.range batchSize) = (List.range batchSize).length := by
    apply List.countP_eq_length.mpr
    intro n hn
    have := h2 n hn
    simp only [stopRow, List.any_eq_true] at this ⊢
    rcases this with ⟨row, hrow, hbeq⟩
    exact ⟨row, by simp [decodeStep, List.mem_append, hrow], hbeq⟩
  rw [List.length_range] at h3
  exact h3

/-- The executed loop is some prefix of the unconditional trajectory: it
equals `iterDecode` at a step count `s ≤ fuel`; a positive fuel forces at
least one step; the stop test fails strictly before `s`; and an early exit
(`s < fuel`) happens only with the stop test true at `s`. -/
theorem genLoop_spec (net : List (List Nat) → List (List ℚ))
    (endIdx batchSize : Nat) :
    ∀ (fuel : Nat) (st : GenState),
      ∃ s, s ≤ fuel
        ∧ genLoop net endIdx batchSize fuel st = iterDecode net s st
        ∧ (1 ≤ fuel → 1 ≤ s)
        ∧ (∀ j, 1 ≤ j → j < s →
            allStopped endIdx batchSize (iterDecode net j st).hist = false)
        ∧ (s < fuel →
            allStopped endIdx batchSize (iterDecode net s st).hist = true) := by
  intro fuel
  induction fuel with
  | zero =>
    intro st
    exact ⟨0, le_refl 0, rfl, by omega, fun j h1 h2 => absurd h2 (by omega),
      fun h => absurd h (by omega)⟩
  | succ m ih =>
    intro st
    by_cases hstop : allStopped endIdx batchSize (decodeStep net st).hist = true
    · refine ⟨1, by omega, ?_, fun _ => le_refl 1,
        fun j h1 h2 => absurd h2 (by omega), fun _ => hstop⟩
      show (if allStopped endIdx batchSize (decodeStep net st).hist then
        decodeStep net st else genLoop net endIdx batchSize m (decodeStep net st)) = _
      rw [if_pos hstop]
      rfl
    · rcases ih (decodeStep net st) with ⟨s2, hs2le, hs2eq, _, hs2min, hs2stop⟩
      refine ⟨s2 + 1, by omega, ?_, by omega, ?_, ?_⟩
      · show (if allStopped endIdx batchSize (decodeStep net st).hist then
          decodeStep net st else genLoop net endIdx batchSize m (decodeStep net st)) = _
        rw [if_neg (by simpa using hstop)]
        rw [hs2eq]
        rfl
      · intro j h1 h2
        match j, h1 with
        | 1, _ => simpa using (by simpa using hstop : _)
        | j2 + 2, _ =>
          have : j2 + 1 < s2 := by omega
          have := hs2min (j2 + 1) (by omega) this
          simpa [iterDecode] using this
      · intro hlt
        have := hs2stop (by omega)
        simpa [iterDecode] using this

theorem iterDecode_hist_mem (net : List (List Nat) → List (List ℚ)) :
    ∀ (k : Nat) (st : GenState) (row : List Nat),
      row ∈ (iterDecode net k st).hist →
      row ∈ st.hist ∨ ∃ h, row = (net h).map (fun d => (maxWithIdx d).2) := by
  intro k
  induction k with
  | zero => intro st row hr; exact Or.inl hr
  | succ m ih =>
    intro st row hr
    rcases ih (decodeStep net st) row hr with h1 | h2
    · simp only [decodeStep, List.mem_append, List.mem_singleton] at h1
      rcases h1 with ha | hb
      · exact Or.inl ha
      · exact Or.inr ⟨st.hist, hb⟩
    · exact Or.inr h2

theorem allStopped_false_of_col (endIdx batchSize : Nat) (hist : List (List Nat))
    (n : Nat) (hn : n < batchSize)
    (hno : ∀ row ∈ hist, row.getD n 0 ≠ endIdx) :
    allStopped endIdx batchSize hist = false := by
  simp only [allStopped, beq_eq_false_iff_ne, ne_eq]
  intro hEq
  have h1 : List.countP (stopRow endIdx hist) (List.range batchSize)
      = (List.range batchSize).length := by rw [List.length_range]; exact hEq
  have h2 := List.countP_eq_length.mp h1 n (List.mem_range.mpr hn)
  simp only [stopRow, List.any_eq_true, beq_iff_eq] at h2
  rcases h2 with ⟨row, hrow, hval⟩
  exact hno row hrow hval

/-- Claim C2: the token output of `AutoregressiveTransformer.generate` has
one row per batch element and every row has length `steps + 1 ≤ maxLen + 1`
(the leading start symbol plus one token per executed loop step); the loop
executes exactly `maxLen` steps when some batch column never receives the
end index (neither from the start row nor from any decoder argmax); and it
stops within `k` steps as soon as the whole batch has contained the end
index by step `k`. -/
theorem autoreg_generate_termination (net : List (List Nat) → List (List ℚ))
    (smax : List ℚ → List ℚ) (endIdx : Nat) (startRow : List Nat) (maxLen : Nat) :
    ((arGenerate net smax endIdx startRow maxLen).1.length = startRow.length
      ∧ ∀ r ∈ (arGenerate net smax endIdx startRow maxLen).1,
          r.length
            = (genLoop net endIdx startRow.length maxLen ⟨[startRow], []⟩).logits.length + 1
          ∧ r.length ≤ maxLen + 1)
    ∧ ((∃ n, n < startRow.length ∧ startRow.getD n 0 ≠ endIdx
          ∧ ∀ h, ((net h).map (fun d => (maxWithIdx d).2)).getD n 0 ≠ endIdx)
        → (genLoop net endIdx startRow.length maxLen ⟨[startRow], []⟩).logits.length
            = maxLen)
    ∧ (∀ k, 1 ≤ k → k ≤ maxLen
        → allStopped endIdx startRow.length
            ((iterDecode net k ⟨[startRow], []⟩).hist) = true
        → (genLoop net endIdx startRow.length maxLen ⟨[startRow], []⟩).logits.length
            ≤ k) := by
  rcases genLoop_spec net endIdx startRow.length maxLen ⟨[startRow], []⟩ with
    ⟨s, hsle, hseq, hpos, hmin, hstop⟩
  have hlen := iterDecode_lengths net s ⟨[startRow], []⟩
  have hhist : (genLoop net endIdx startRow.length maxLen ⟨[startRow], []⟩).hist.length
      = s + 1 := by
    rw [hseq, hlen.1]; simp; omega
  have hlog : (genLoop net endIdx startRow.length maxLen ⟨[startRow], []⟩).logits.length
      = s := by
    rw [hseq, hlen.2]; simp
  refine ⟨⟨?_, ?_⟩, ?_, ?_⟩
  · simp [arGenerate]
  · intro r hr
    simp only [arGenerate, List.mem_map] at hr
    rcases hr with ⟨n, hn, rfl⟩
    constructor
    · rw [List.length_map, hhist, hlog]
    · rw [List.length_map, hhist]; omega
  · rintro ⟨n, hn, hstart, hnet⟩
    have hfalse : ∀ j, allStopped endIdx startRow.length
        ((iterDecode net j ⟨[startRow], []⟩).hist) = false := by
      intro j
      apply allStopped_false_of_col endIdx startRow.length _ n hn
      intro row hrow
      rcases iterDecode_hist_mem net j ⟨[startRow], []⟩ row hrow with h1 | ⟨h2, rfl⟩
      · simp only [List.mem_singleton] at h1
        rw [h1]
        exact hstart
      · exact hnet h2
    rw [hlog]
    by_contra hne
    have hslt : s < maxLen := by omega
    have := hstop hslt
    rw [hfalse s] at this
    exact absurd this (by simp)
  · intro k hk1 hk2 hstopk
    rw [hlog]
    by_contra hgt
    have := hmin k hk1 (by omega)
    rw [hstopk] at this
    exact absurd this (by simp)

/-- A concrete decoder function that always proposes symbol 0 (its single
distribution has its maximum at index 0). -/
def netW2 : List (List Nat) → List (List ℚ) := fun _ => [[1, 0]]

theorem autoreg_generate_termination_witness :
    (genLoop netW2 5 1 3 ⟨[[0]], []⟩).logits.length = 3
    ∧ (arGenerate netW2 id 5 [0] 3).1.length = 1 :=
  ⟨(autoreg_generate_termination netW2 id 5 [0] 3).2.1
      ⟨0, by decide, by decide, fun h => by simp only [netW2]; decide⟩,
   (autoreg_generate_termination netW2 id 5 [0] 3).1.1⟩

/-- Claim C9: when every entry of the supplied start row equals the end
index, the termination test (which scans the whole history, the start row
included) is already satisfied after the first iteration, so with
`maxLen ≥ 1` every returned token row has length exactly 2 whatever
`maxLen` is. -/
theorem autoreg_start_equals_end (net : List (List Nat) → List (List ℚ))
    (smax : List ℚ → List ℚ) (endIdx : Nat) (startRow : List Nat) (maxLen : Nat)
    (hstart : ∀ x ∈ startRow, x = endIdx) (hmax : 1 ≤ maxLen) :
    ∀ r ∈ (arGenerate net smax endIdx startRow maxLen).1, r.length = 2 := by
  obtain ⟨m, rfl⟩ : ∃ m, maxLen = m + 1 := ⟨maxLen - 1, by omega⟩
  have hstop : allStopped endIdx startRow.length
      (decodeStep net ⟨[startRow], []⟩).hist = true := by
    simp only [allStopped, beq_iff_eq]
    have hcnt : List.countP (stopRow endIdx (decodeStep net ⟨[startRow], []⟩).hist)
        (List.range startRow.length) = (List.range startRow.length).length := by
      apply List.countP_eq_length.mpr
      intro n hn
      have hlt : n < startRow.length := List.mem_range.mp hn
      simp only [stopRow, List.any_eq_true, beq_iff_eq]
      refine ⟨startRow, by simp [decodeStep], ?_⟩
      rw [List.getD_eq_getElem?_getD, List.getElem?_eq_getElem hlt]
      exact hstart _ (List.getElem_mem hlt)
    rw [List.length_range] at hcnt
    exact hcnt
  have hloop : genLoop net endIdx startRow.length (m + 1) ⟨[startRow], []⟩
      = decodeStep net ⟨[startRow], []⟩ := by
    simp only [genLoop]
    rw [if_pos hstop]
  intro r hr
  simp only [arGenerate, List.mem_map] at hr
  rcases hr with ⟨n, hn, rfl⟩
  rw [List.length_map, hloop]
  simp [decodeStep]

theorem autoreg_start_equals_end_witness :
    ((arGenerate netW2 id 2 [2, 2] 5).1.getD 0 []).length = 2 :=
  autoreg_start_equals_end netW2 id 2 [2, 2] 5 (by decide) (by decide)
    ((arGenerate netW2 id 2 [2, 2] 5).1.getD 0 []) (by decide)

theorem setFold_append (g : Nat → ℚ) (js : List Nat) :
    ∀ (l t : List ℚ), (∀ j ∈ js, j + 1 < l.length) →
      js.foldl (fun acc j => acc.set (j + 1) (g j)) (l ++ t)
        = js.foldl (fun acc j => acc.set (j + 1) (g j)) l ++ t := by
  induction js with
  | nil => intro l t _; rfl
  | cons j js ih =>
    intro l t h
    simp only [List.foldl_cons]
    rw [List.set_append_left _ _ (h j (List.mem_cons_self j js))]
    apply ih
    intro j2 hj2
    rw [List.length_set]
    exact h j2 (List.mem_cons_of_mem _ hj2)

theorem fillProbs_succ_eq (n : Nat) (lr : List (List ℚ)) :
    fillProbs (n + 1) lr
      = 1 :: (List.range n).map (fun j => listMax (lr.getD j [])) := by
  induction n with
  | zero => rfl
  | succ m ih =>
    show (List.range (m + 1)).foldl (fun acc j => acc.set (j + 1) (listMax (lr.getD j [])))
        (List.replicate (m + 2) 1) = _
    rw [List.range_succ, List.foldl_append, List.replicate_succ' (m + 1) (1 : ℚ),
        setFold_append (fun j => listMax (lr.getD j [])) (List.range m) _ _
          (fun j hj => by
            rw [List.length_replicate]
            have := List.mem_range.mp hj
            omega)]
    have hfold : (List.range m).foldl
        (fun acc j => acc.set (j + 1) (listMax (lr.getD j []))) (List.replicate (m + 1) 1)
        = fillProbs (m + 1) lr := rfl
    rw [hfold, ih]
    simp only [List.foldl_cons, List.foldl_nil]
    rw [List.set_append_right _ _ (by simp)]
    simp [List.map_append]

theorem foldl_max_mem (x : ℚ) (xs : List ℚ) : xs.foldl max x ∈ x :: xs := by
  induction xs generalizing x with
  | nil => simp
  | cons y ys ih =>
    simp only [List.foldl_cons]
    rcases List.mem_cons.mp (ih (max x y)) with h | h
    · rw [h]
      rcases max_choice x y with h2 | h2
      · rw [h2]; exact List.mem_cons_self _ _
      · rw [h2]; exact List.mem_cons_of_mem _ (List.mem_cons_self _ _)
    · exact List.mem_cons_of_mem _ (List.mem_cons_of_mem _ h)

theorem listMax_bounds (l : List ℚ) (h : ∀ x ∈ l, 0 ≤ x ∧ x ≤ 1) :
    0 ≤ listMax l ∧ listMax l ≤ 1 := by
  cases l with
  | nil => exact ⟨le_refl 0, by norm_num [listMax]⟩
  | cons x xs =>
    have hm : listMax (x :: xs) ∈ x :: xs := foldl_max_mem x xs
    exact h _ hm

/-- Claim C3, amended: every confidence returned by
`AutoregressiveTransformer.generate` lies in `[0, 1]` (given that the
softmax maps into `[0, 1]`), the confidence of the first position (the
start symbol) is exactly 1, and the confidence at position `j + 1` equals
the maximum of the distribution obtained by applying softmax a second time
(line 325) to the decoder's already-softmaxed output distribution of step
`j` — not the maximum of that distribution itself. -/
theorem autoreg_confidence_amended (net : List (List Nat) → List (List ℚ))
    (smax : List ℚ → List ℚ) (endIdx : Nat) (startRow : List Nat) (maxLen : Nat)
    (hrange : ∀ d : List ℚ, ∀ x ∈ smax d, 0 ≤ x ∧ x ≤ 1) :
    (∀ row ∈ (arGenerate net smax endIdx startRow maxLen).2,
        (∀ x ∈ row, 0 ≤ x ∧ x ≤ 1) ∧ row.getD 0 0 = 1)
    ∧ (∀ n, n < startRow.length →
        ∀ j, j < (genLoop net endIdx startRow.length maxLen ⟨[startRow], []⟩).logits.length →
          ((arGenerate net smax endIdx startRow maxLen).2.getD n []).getD (j + 1) 0
            = listMax (smax
                (((genLoop net endIdx startRow.length maxLen
                    ⟨[startRow], []⟩).logits.getD j []).getD n []))) := by
  rcases genLoop_spec net endIdx startRow.length maxLen ⟨[startRow], []⟩ with
    ⟨s, hsle, hseq, -, -, -⟩
  have hlen := iterDecode_lengths net s ⟨[startRow], []⟩
  have hhist : (genLoop net endIdx startRow.length maxLen
      ⟨[startRow], []⟩).hist.length = s + 1 := by
    rw [hseq, hlen.1]; simp; omega
  have hlog : (genLoop net endIdx startRow.length maxLen
      ⟨[startRow], []⟩).logits.length = s := by
    rw [hseq, hlen.2]; simp
  constructor
  · intro row hrow
    simp only [arGenerate, List.mem_map] at hrow
    obtain ⟨lr, ⟨n, hn, rfl⟩, rfl⟩ := hrow
    rw [hhist, fillProbs_succ_eq]
    refine ⟨?_, rfl⟩
    intro x hx
    rcases List.mem_cons.mp hx with rfl | hx2
    · norm_num
    · rcases List.mem_map.mp hx2 with ⟨j, hj, rfl⟩
      have hjlt : j < (genLoop net endIdx startRow.length maxLen
          ⟨[startRow], []⟩).logits.length := by
        rw [hlog]; exact List.mem_range.mp hj
      rw [getD_map_lt (fun step => smax (step.getD n [])) _ j [] [] hjlt]
      exact listMax_bounds _ (fun x hx => hrange _ x hx)
  · intro n hn j hj
    have hprobs : (arGenerate net smax endIdx startRow maxLen).2
        = ((List.range startRow.length).map
            (fun n => (genLoop net endIdx startRow.length maxLen
                ⟨[startRow], []⟩).logits.map (fun step => smax (step.getD n [])))).map
            (fun lr => fillProbs (genLoop net endIdx startRow.length maxLen
                ⟨[startRow], []⟩).hist.length lr) := rfl
    rw [hprobs,
        getD_map_lt _ _ n [] []
          (by rw [List.length_map, List.length_range]; exact hn),
        getD_map_lt (fun n => (genLoop net endIdx startRow.length maxLen
            ⟨[startRow], []⟩).logits.map (fun step => smax (step.getD n []))) _ n 0 []
          (by rw [List.length_range]; exact hn)]
    have hrg : (List.range startRow.length).getD n 0 = n := by
      rw [List.getD_eq_getElem?_getD,
          List.getElem?_eq_getElem (by rw [List.length_range]; exact hn)]
      simp
    rw [hrg, hhist, fillProbs_succ_eq]
    have hcons : ∀ (a : ℚ) (l : List ℚ) (k : Nat), (a :: l).getD (k + 1) 0 = l.getD k 0 :=
      fun a l k => rfl
    rw [hcons,
        getD_map_lt (fun j => listMax (((genLoop net endIdx startRow.length maxLen
            ⟨[startRow], []⟩).logits.map
            (fun step => smax (step.getD n []))).getD j [])) _ j 0 0
          (by rw [List.length_range, ← hlog]; exact hj)]
    have hrg2 : (List.range s).getD j 0 = j := by
      rw [List.getD_eq_getElem?_getD,
          List.getElem?_eq_getElem (by rw [List.length_range, ← hlog]; exact hj)]
      simp
    rw [hrg2, getD_map_lt (fun step => smax (step.getD n [])) _ j [] [] hj]

/-- A softmax-like row map with values in `[0, 1]` (it is the exact softmax
of any row with equal entries); under a second application of softmax the
maximum of a distribution changes, which this function makes visible. -/
def constHalf (l : List ℚ) : List ℚ := l.map (fun _ => mkRat 1 2)

/-- A concrete decoder function: one batch element, one distribution with
maximum 3/4 at index 0. -/
def netC3 : List (List Nat) → List (List ℚ) := fun _ => [[mkRat 3 4, mkRat 1 4]]

/-- Claim C3 as stated is false: with a softmax mapping into `[0, 1]`, the
confidence at position 1 does not equal the maximum of the decoder's output
distribution of step 0 — line 325 softmaxes the already-softmaxed
distributions once more before the maxima are read off, so the returned
value is the maximum of the re-normalized distribution instead. -/
theorem autoreg_confidence_counterexample :
    (∀ d : List ℚ, ∀ x ∈ constHalf d, 0 ≤ x ∧ x ≤ 1)
    ∧ ((arGenerate netC3 constHalf 5 [0] 1).2.getD 0 []).getD 1 0
        ≠ listMax (((genLoop netC3 5 1 1 ⟨[[0]], []⟩).logits.getD 0 []).getD 0 []) := by
  constructor
  · intro d x hx
    simp only [constHalf] at hx
    rcases List.mem_map.mp hx with ⟨a, ha, rfl⟩
    decide
  · decide

theorem autoreg_confidence_amended_witness :
    ((arGenerate netC3 constHalf 5 [0] 1).2.getD 0 []).getD 1 0
      = listMax (constHalf
          (((genLoop netC3 5 1 1 ⟨[[0]], []⟩).logits.getD 0 []).getD 0 [])) :=
  (autoreg_confidence_amended netC3 constHalf 5 [0] 1
      (by
        intro d x hx
        simp only [constHalf] at hx
        rcases List.mem_map.mp hx with ⟨a, ha, rfl⟩
        decide)).2
    0 (by decide) 0 (by decide)

/-- `make_len_mask` (model.py lines 158-159): true exactly at the
positions whose input id is 0. -/
def makeLenMask (x : List Nat) : List Bool := x.map (fun t => decide (t = 0))

/-- `ForwardTransformer.forward` (model.py lines 161-173) for one sample
of the batch: the padding mask is computed from the input and the learned
stack (embedding, positional encoding, masked encoder, projection) is the
abstract function `enc`, consuming the input ids and that mask and
producing one logit row per input position.  Batch elements do not attend
to each other, so the batch case is the per-sample map of this. -/
def forwardT (enc : List Nat → List Bool → List (List ℚ)) (x : List Nat) :
    List (List ℚ) :=
  enc x (makeLenMask x)

/-- `ForwardTransformer.generate` (model.py lines 175-181): forward pass
then dedup decoding of the whole batch. -/
def generateF (enc : List Nat → List Bool → List (List ℚ))
    (smax : List ℚ → List ℚ) (xs : List (List Nat)) :
    List (List Nat) × List (List ℚ) :=
  getDedupTokens smax (xs.map (forwardT enc))

/-- One-hot logit row of width `v` with the 1 at index `i`. -/
def oneHot (v i : Nat) : List ℚ :=
  (List.range v).map (fun j => if j = i then 1 else 0)

/-- A concrete masked encoder mapping each position's id `t` to the one-hot
row at `t + 1`; it is pointwise, so masking changes nothing and the output
at the original positions is untouched by extra padding — yet every padded
position emits argmax 1 ≠ 0. -/
def encShift : List Nat → List Bool → List (List ℚ) :=
  fun x _ => x.map (fun t => oneHot 3 (t + 1))

theorem dedupSample_append_zero (smax : List ℚ → List ℚ) (a b : List (List ℚ))
    (hb : ∀ r ∈ b, (maxWithIdx (smax r)).2 = 0) :
    dedupSample smax (a ++ b) = dedupSample smax a := by
  unfold dedupSample
  dsimp only
  rw [List.map_append, List.filter_append]
  have hnil : (b.map (fun r => maxWithIdx (smax r))).filter
      (fun p => decide (p.2 ≠ 0)) = [] := by
    rw [List.filter_eq_nil_iff]
    intro p hp
    rcases List.mem_map.mp hp with ⟨r, hr, rfl⟩
    simp [hb r hr]
  rw [hnil, List.append_nil]

/-- Claim C4 as stated is false: an encoder that leaves the logits at all
original positions untouched when padding is appended (the guarantee that
padding masking provides) can still change the `generate` output, because
the appended padding positions contribute additional logit frames of their
own, and nothing forces their argmax to be 0.  Here the batch has real
lengths 2 and 1, one zero of padding is appended to each row, the original
positions' logits are unchanged, yet the outputs differ. -/
theorem forward_padding_counterexample :
    (∀ (x : List Nat) (k : Nat),
        (forwardT encShift (x ++ List.replicate k 0)).take x.length
          = forwardT encShift x)
    ∧ generateF encShift id [[1, 1, 0], [1, 0, 0]]
        ≠ generateF encShift id [[1, 1], [1, 0]] := by
  constructor
  · intro x k
    show ((x ++ List.replicate k 0).map (fun t => oneHot 3 (t + 1))).take x.length
      = x.map (fun t => oneHot 3 (t + 1))
    rw [List.map_append,
        show x.length = (x.map (fun t => oneHot 3 (t + 1))).length from
          (List.length_map _ _).symm,
        List.take_left]
  · decide

/-- Claim C4, amended: appending zero padding to each sample leaves the
`generate` output of the non-autoregressive path unchanged provided that,
besides the original positions' logits being unchanged (what the padding
mask provides), every appended padding position's logit row has argmax 0;
without that extra condition the output can change. -/
theorem forward_generate_padding_amended
    (enc : List Nat → List Bool → List (List ℚ)) (smax : List ℚ → List ℚ)
    (xs : List (List Nat)) (ks : List Nat) (hlen : ks.length = xs.length)
    (hmask : ∀ i, i < xs.length →
        (forwardT enc ((xs.getD i []) ++ List.replicate (ks.getD i 0) 0)).take
            (xs.getD i []).length = forwardT enc (xs.getD i []))
    (hzero : ∀ i, i < xs.length →
        ∀ r ∈ (forwardT enc ((xs.getD i []) ++ List.replicate (ks.getD i 0) 0)).drop
            (xs.getD i []).length, (maxWithIdx (smax r)).2 = 0) :
    generateF enc smax (List.zipWith (fun x k => x ++ List.replicate k 0) xs ks)
      = generateF enc smax xs := by
  have hzlen : (List.zipWith (fun x k => x ++ List.replicate k 0) xs ks).length
      = xs.length := by
    rw [List.length_zipWith, hlen, Nat.min_self]
  have hmap : (List.zipWith (fun x k => x ++ List.replicate k 0) xs ks).map
      (fun y => dedupSample smax (forwardT enc y))
      = xs.map (fun y => dedupSample smax (forwardT enc y)) := by
    apply List.ext_getElem
    · rw [List.length_map, List.length_map, hzlen]
    · intro i h1 h2
      rw [List.length_map, hzlen] at h1
      rw [List.length_map] at h2
      simp only [List.getElem_map]
      have hik : i < ks.length := by omega
      have hiz : i < (List.zipWith (fun x k => x ++ List.replicate k 0) xs ks).length := by
        rw [hzlen]; exact h2
      have hgx : xs.getD i [] = xs[i] := by
        rw [List.getD_eq_getElem?_getD, List.getElem?_eq_getElem h2]
        rfl
      have hgk : ks.getD i 0 = ks[i] := by
        rw [List.getD_eq_getElem?_getD, List.getElem?_eq_getElem hik]
        rfl
      have hzi : (List.zipWith (fun x k => x ++ List.replicate k 0) xs ks)[i]
          = xs[i] ++ List.replicate ks[i] 0 := by
        rw [List.getElem_zipWith]
      rw [hzi, ← hgx, ← hgk]
      calc dedupSample smax (forwardT enc ((xs.getD i []) ++ List.replicate (ks.getD i 0) 0))
          = dedupSample smax
              ((forwardT enc ((xs.getD i []) ++ List.replicate (ks.getD i 0) 0)).take
                  (xs.getD i []).length
                ++ (forwardT enc ((xs.getD i []) ++ List.replicate (ks.getD i 0) 0)).drop
                  (xs.getD i []).length) := by
            rw [List.take_append_drop]
        _ = dedupSample smax
              ((forwardT enc ((xs.getD i []) ++ List.replicate (ks.getD i 0) 0)).take
                  (xs.getD i []).length) :=
            dedupSample_append_zero smax _ _ (hzero i h2)
        _ = dedupSample smax (forwardT enc (xs.getD i [])) := by rw [hmask i h2]
  have h1 : (List.zipWith (fun x k => x ++ List.replicate k 0) xs ks).map
      (fun y => (dedupSample smax (forwardT enc y)).1)
      = xs.map (fun y => (dedupSample smax (forwardT enc y)).1) := by
    have := congrArg (List.map Prod.fst) hmap
    simpa [List.map_map, Function.comp] using this
  have h2 : (List.zipWith (fun x k => x ++ List.replicate k 0) xs ks).map
      (fun y => (dedupSample smax (forwardT enc y)).2)
      = xs.map (fun y => (dedupSample smax (forwardT enc y)).2) := by
    have := congrArg (List.map Prod.snd) hmap
    simpa [List.map_map, Function.comp] using this
  unfold generateF getDedupTokens
  rw [List.map_map, List.map_map, List.map_map, List.map_map]
  rw [show (fun s => (dedupSample smax s).1) ∘ forwardT enc
        = fun y => (dedupSample smax (forwardT enc y)).1 from rfl,
      show (fun s => (dedupSample smax s).2) ∘ forwardT enc
        = fun y => (dedupSample smax (forwardT enc y)).2 from rfl,
      h1, h2]

/-- A concrete masked encoder mapping each position's id `t` to the one-hot
row at `t`, so appended zero padding produces argmax-0 frames. -/
def encEmbed : List Nat → List Bool → List (List ℚ) :=
  fun x _ => x.map (fun t => oneHot 3 t)

theorem forward_generate_padding_amended_witness :
    generateF encEmbed id
        (List.zipWith (fun x k => x ++ List.replicate k 0) [[1, 2], [2, 0]] [1, 1])
      = generateF encEmbed id [[1, 2], [2, 0]] :=
  forward_generate_padding_amended encEmbed id [[1, 2], [2, 0]] [1, 1]
    (by decide) (by decide) (by decide)

/-- Mutable per-model state: the registered `step` buffer (an integer
tensor, initialized to 1 at construction), the `nn.Module` training flag,
and the learned parameters, abstracted by the type `π`.  The forward and
generate methods never assign any attribute other than `step`, so their
effect on the model is captured by functions on this record. -/
structure MState (π : Type) where
  step : Int
  training : Bool
  params : π
deriving DecidableEq

/-- Effect of `LstmModel.forward` on the model state (model.py lines
63-64): `if self.training: self.step += 1`; nothing else is assigned. -/
def lstmForwardEffect (st : MState π) : MState π :=
  if st.training then { st with step := st.step + 1 } else st

/-- Effect of `ForwardTransformer.forward` on the model state (model.py
lines 163-164): identical training-gated increment. -/
def forwardTransformerForwardEffect (st : MState π) : MState π :=
  if st.training then { st with step := st.step + 1 } else st

/-- Effect of `AutoregressiveTransformer.forward` on the model state
(model.py lines 265-266): identical training-gated increment. -/
def autoregForwardEffect (st : MState π) : MState π :=
  if st.training then { st with step := st.step + 1 } else st

/-- Effect of `LstmModel.generate` on the model state (model.py lines
75-81): it calls `self.forward` (under `torch.no_grad`, which does not
touch the training flag), so it inherits forward's effect. -/
def lstmGenerateEffect (st : MState π) : MState π :=
  lstmForwardEffect st

/-- Effect of `ForwardTransformer.generate` on the model state (model.py
lines 175-181): it calls `self.forward`, inheriting its effect. -/
def forwardTransformerGenerateEffect (st : MState π) : MState π :=
  forwardTransformerForwardEffect st

/-- Effect of `AutoregressiveTransformer.generate` on the model state
(model.py lines 289-330): the body calls the encoder and decoder submodule
stacks directly, never `self.forward`, and never references `self.step`. -/
def autoregGenerateEffect (st : MState π) : MState π := st

/-- Claim C5 as stated is false at a concrete state: on a model left in
training mode, `LstmModel.generate` calls `self.forward`, which increments
the step counter. -/
theorem step_counter_counterexample :
    (lstmGenerateEffect (⟨1, true, ()⟩ : MState Unit)).step
      ≠ (⟨1, true, ()⟩ : MState Unit).step := by
  decide

/-- Claim C5, amended: every variant's forward call increments the step
counter exactly once in training mode and leaves the state untouched in
evaluation mode, mutating no other field; the LSTM and forward-transformer
generate calls delegate to forward — so they leave the counter unchanged
in evaluation mode but increment it when the model is still in training
mode — while the autoregressive generate never mutates the state at
all. -/
theorem step_counter_amended (π : Type) (st : MState π) :
    (st.training = true →
        lstmForwardEffect st = ⟨st.step + 1, st.training, st.params⟩
        ∧ forwardTransformerForwardEffect st = ⟨st.step + 1, st.training, st.params⟩
        ∧ autoregForwardEffect st = ⟨st.step + 1, st.training, st.params⟩)
    ∧ (st.training = false →
        lstmForwardEffect st = st
        ∧ forwardTransformerForwardEffect st = st
        ∧ autoregForwardEffect st = st)
    ∧ lstmGenerateEffect st = lstmForwardEffect st
    ∧ forwardTransformerGenerateEffect st = forwardTransformerForwardEffect st
    ∧ (st.training = false →
        lstmGenerateEffect st = st ∧ forwardTransformerGenerateEffect st = st)
    ∧ autoregGenerateEffect st = st := by
  refine ⟨?_, ?_, rfl, rfl, ?_, rfl⟩
  · intro h
    refine ⟨?_, ?_, ?_⟩ <;>
      simp [lstmForwardEffect, forwardTransformerForwardEffect, autoregForwardEffect, h]
  · intro h
    refine ⟨?_, ?_, ?_⟩ <;>
      simp [lstmForwardEffect, forwardTransformerForwardEffect, autoregForwardEffect, h]
  · intro h
    refine ⟨?_, ?_⟩ <;>
      simp [lstmGenerateEffect, forwardTransformerGenerateEffect,
        lstmForwardEffect, forwardTransformerForwardEffect, h]

theorem step_counter_amended_witness :
    autoregGenerateEffect (⟨5, true, ()⟩ : MState Unit) = ⟨5, true, ()⟩ :=
  (step_counter_amended Unit ⟨5, true, ()⟩).2.2.2.2.2

/-- The three dispatchable model variants of `load_checkpoint`. -/
inductive ModelVariant where
  | lstm
  | transformer
  | autoregTransformer
deriving DecidableEq

/-- A persisted checkpoint: the configured model type tag, the stored step
counter, and the stored parameters. -/
structure Checkpoint (π : Type) where
  modelType : String
  step : Int
  params : π
deriving DecidableEq

/-- The `supported_types` list as written at model.py line 205. -/
def supportedTypes : List String := ["lstm", "transformer"]

/-- `load_checkpoint` (model.py lines 200-218): dispatch on the type tag,
build the matching variant, load the stored state (which restores the
stored step counter) and switch to evaluation mode; an unrecognized tag
raises a `ValueError` carrying the offending tag and `supported_types`. -/
def loadCheckpoint (ck : Checkpoint π) :
    Except (String × List String) (ModelVariant × MState π) :=
  if ck.modelType = "lstm" then
    Except.ok (ModelVariant.lstm, ⟨ck.step, false, ck.params⟩)
  else if ck.modelType = "transformer" then
    Except.ok (ModelVariant.transformer, ⟨ck.step, false, ck.params⟩)
  else if ck.modelType = "autoreg_transformer" then
    Except.ok (ModelVariant.autoregTransformer, ⟨ck.step, false, ck.params⟩)
  else
    Except.error (ck.modelType, supportedTypes)

/-- Claim C6, evaluated at its failing input: an unsupported tag fails
fast naming the offending tag, but the supported set in the error payload
is the stale `supported_types` list `[lstm, transformer]`, which omits
`autoreg_transformer` even though the dispatch right below it accepts that
tag and builds the matching variant in evaluation mode. -/
theorem load_checkpoint_supported_set :
    loadCheckpoint (⟨"gru", 7, ()⟩ : Checkpoint Unit)
        = Except.error ("gru", ["lstm", "transformer"])
    ∧ "autoreg_transformer" ∉ supportedTypes
    ∧ loadCheckpoint (⟨"autoreg_transformer", 7, ()⟩ : Checkpoint Unit)
        = Except.ok (ModelVariant.autoregTransformer, ⟨7, false, ()⟩)
    ∧ loadCheckpoint (⟨"lstm", 7, ()⟩ : Checkpoint Unit)
        = Except.ok (ModelVariant.lstm, ⟨7, false, ()⟩)
    ∧ loadCheckpoint (⟨"transformer", 7, ()⟩ : Checkpoint Unit)
        = Except.ok (ModelVariant.transformer, ⟨7, false, ()⟩) :=
  ⟨by rfl, by decide, by rfl, by rfl, by rfl⟩

/-- `torch.ones(sz, sz)`. -/
def onesMat (sz : Nat) : List (List ℚ) :=
  List.replicate sz (List.replicate sz 1)

/-- `torch.triu(m, k)`: keep the entries on and above the k-th diagonal
(column minus row at least k), zero elsewhere. -/
def triu (m : List (List ℚ)) (k : Int) : List (List ℚ) :=
  m.enum.map (fun p => p.2.enum.map (fun q =>
    if (q.1 : Int) - (p.1 : Int) ≥ k then q.2 else 0))

/-- `mask.masked_fill(mask == 1, float(-inf))`: replace every entry equal
to 1 by negative infinity, modelled as the bottom element of `WithBot ℚ`
(the -inf of the float mask is only ever used as an attention bias marker,
never arithmetically, so the symbolic bottom is faithful). -/
def maskedFillNegInf (m : List (List ℚ)) : List (List (WithBot ℚ)) :=
  m.map (fun row => row.map (fun (v : ℚ) => if v = 1 then (⊥ : WithBot ℚ) else (v : WithBot ℚ)))

/-- `generate_square_subsequent_mask` (model.py lines 255-258, identical at
lines 153-156). -/
def generateSquareSubsequentMask (sz : Nat) : List (List (WithBot ℚ)) :=
  maskedFillNegInf (triu (onesMat sz) 1)

/-- Claim C7: the causal mask is an sz × sz matrix whose entries strictly
above the diagonal (row index < column index) are negative infinity and
whose remaining entries are 0, so position i may attend only to positions
≤ i. -/
theorem causal_mask_entries (sz : Nat) (_hsz : 1 ≤ sz) :
    (generateSquareSubsequentMask sz).length = sz
    ∧ (∀ i, i < sz → ((generateSquareSubsequentMask sz).getD i []).length = sz)
    ∧ (∀ i, i < sz → ∀ j, j < sz →
        ((generateSquareSubsequentMask sz).getD i []).getD j 0
          = if i < j then (⊥ : WithBot ℚ) else 0) := by
  have hlen1 : (generateSquareSubsequentMask sz).length = sz := by
    simp [generateSquareSubsequentMask, maskedFillNegInf, triu, onesMat]
  have hrow : ∀ i, i < sz → (generateSquareSubsequentMask sz).getD i []
      = ((List.replicate sz (1 : ℚ)).enum.map (fun q =>
          if (q.1 : Int) - (i : Int) ≥ 1 then q.2 else (0 : ℚ))).map
          (fun (v : ℚ) => if v = 1 then (⊥ : WithBot ℚ) else (v : WithBot ℚ)) := by
    intro i hi
    have hi1 : i < (triu (onesMat sz) 1).length := by
      simp [triu, onesMat]
      omega
    have hi2 : i < (onesMat sz).enum.length := by
      simp [onesMat]
      omega
    rw [show generateSquareSubsequentMask sz
          = maskedFillNegInf (triu (onesMat sz) 1) from rfl,
        maskedFillNegInf,
        getD_map_lt (fun row => row.map
          (fun (v : ℚ) => if v = 1 then (⊥ : WithBot ℚ) else (v : WithBot ℚ))) _ i [] [] hi1,
        triu,
        getD_map_lt (fun p => p.2.enum.map (fun q =>
          if (q.1 : Int) - (p.1 : Int) ≥ 1 then q.2 else (0 : ℚ))) _ i (0, []) [] hi2]
    have henum : (onesMat sz).enum.getD i (0, []) = (i, List.replicate sz (1 : ℚ)) := by
      rw [List.getD_eq_getElem?_getD, List.getElem?_eq_getElem hi2]
      simp [List.getElem_enum, onesMat, List.getElem_replicate]
    rw [henum]
  refine ⟨hlen1, ?_, ?_⟩
  · intro i hi
    rw [hrow i hi]
    simp
  · intro i hi j hj
    rw [hrow i hi]
    have hj2 : j < ((List.replicate sz (1 : ℚ)).enum.map (fun q =>
        if (q.1 : Int) - (i : Int) ≥ 1 then q.2 else (0 : ℚ))).length := by
      simp
      omega
    rw [getD_map_lt (fun (v : ℚ) => if v = 1 then (⊥ : WithBot ℚ) else (v : WithBot ℚ))
        _ j 0 0 hj2]
    have hj3 : j < ((List.replicate sz (1 : ℚ)).enum).length := by
      simp
      omega
    rw [getD_map_lt (fun q => if ((q.1 : Int) - (i : Int) ≥ 1) then q.2 else (0 : ℚ))
        _ j (0, 0) 0 hj3]
    have henj : (List.replicate sz (1 : ℚ)).enum.getD j (0, 0) = (j, 1) := by
      rw [List.getD_eq_getElem?_getD, List.getElem?_eq_getElem hj3]
      simp [List.getElem_enum, List.getElem_replicate]
    rw [henj]
    by_cases hij : i < j
    · rw [if_pos hij]
      have hc : ((j : Int) - (i : Int) ≥ 1) := by omega
      simp [hc]
    · rw [if_neg hij]
      have hc : ¬ ((j : Int) - (i : Int) ≥ 1) := by omega
      simp [hc]

theorem causal_mask_entries_witness :
    (generateSquareSubsequentMask 3).length = 3 :=
  (causal_mask_entries 3 (by decide)).1
